import Mathlib

set_option maxRecDepth 40000

/-!
Verification of `5100_display_undump.py`: a tool that decodes textual
transcriptions of the IBM 5100 DISPLAY REGISTERS screen (16 lines of 64
uppercase hex digits) into binary data.

The embedding below follows the Python source:
  * `validate`  — the three assertions checking shape and character set,
    modelled as an `Except` value carrying a structured error;
  * `decode`    — even/odd line partition, concatenation, character
    interleaving via `zip`, and `bytes.fromhex`;
  * `main`      — the driver loop: uppercase each file's lines, validate,
    and append the decoded bytes to the output stream, stopping at the
    first failure.
-/

/-- The characters accepted by `validate`: the Python string
`'0123456789ABCDEF'` as a list of characters. -/
def hexChars : List Char := "0123456789ABCDEF".toList

/-- Value of one hexadecimal digit character, as accepted by Python's
`bytes.fromhex` (digits, uppercase and lowercase letters; the numerals are
the ASCII ranges 48–57, 65–70 and 97–102). `none` on any other
character. -/
def hexVal (c : Char) : Option Nat :=
  if 48 ≤ c.toNat ∧ c.toNat ≤ 57 then some (c.toNat - 48)
  else if 65 ≤ c.toNat ∧ c.toNat ≤ 70 then some (c.toNat - 55)
  else if 97 ≤ c.toNat ∧ c.toNat ≤ 102 then some (c.toNat - 87)
  else none

/-- Model of Python's `bytes.fromhex` on whitespace-free input (the decoder
only ever passes hex digit characters): consecutive pairs of hex digits
become one byte each, most-significant nibble first; an odd-length input or
a non-hex character yields `none` (Python raises `ValueError`). -/
def bytesFromHex : List Char → Option (List Nat)
  | [] => some []
  | [_] => none
  | c1 :: c2 :: rest => do
    let hi ← hexVal c1
    let lo ← hexVal c2
    let tail ← bytesFromHex rest
    pure ((16 * hi + lo) :: tail)

/-- Python slice `data[::2]`: the elements at even indices, in order. -/
def evens {α : Type} : List α → List α
  | [] => []
  | [x] => [x]
  | x :: _ :: rest => x :: evens rest

/-- Python slice `data[1::2]`: the elements at odd indices, in order. -/
def odds {α : Type} : List α → List α
  | [] => []
  | [_] => []
  | _ :: y :: rest => y :: odds rest

/-- The three assertion failures of `validate` in the Python source, each
carrying the offending filename (every Python message interpolates the
filename); the line-count error also records the observed number of lines,
as the Python message does. -/
inductive ValidationError where
  | wrongLineCount : String → Nat → ValidationError
  | wrongLineLength : String → ValidationError
  | badCharacters : String → ValidationError
deriving DecidableEq, Repr

/-- The filename interpolated into the error message. -/
def ValidationError.filename : ValidationError → String
  | .wrongLineCount f _ => f
  | .wrongLineLength f => f
  | .badCharacters f => f

/-- `validate(filename, data)` from the source: assert 16 lines, then
assert every line has 64 characters, then assert every character of
`''.join(data)` is in `'0123456789ABCDEF'`. The first failing assertion
raises; success returns unit. -/
def validate (filename : String) (data : List (List Char)) : Except ValidationError Unit :=
  if data.length = 16 then
    if ∀ d ∈ data, d.length = 64 then
      if ∀ c ∈ data.flatten, c ∈ hexChars then
        .ok ()
      else .error (.badCharacters filename)
    else .error (.wrongLineLength filename)
  else .error (.wrongLineCount filename data.length)

/-- `decode(data)` from the source:
`top_rows = ''.join(data[::2])`, `bot_rows = ''.join(data[1::2])`,
`all_hex = ''.join(itertools.chain.from_iterable(zip(top_rows, bot_rows)))`,
`return bytes.fromhex(all_hex)`. -/
def decode (data : List (List Char)) : Option (List Nat) :=
  let top_rows := (evens data).flatten
  let bot_rows := (odds data).flatten
  let all_hex := (top_rows.zip bot_rows).flatMap fun p => [p.1, p.2]
  bytesFromHex all_hex

/-- Ways a run can abort: a failed validation assertion, or a
`bytes.fromhex` failure inside `decode` (a `ValueError`). -/
inductive RunError where
  | validation : ValidationError → RunError
  | decodeFailure : String → RunError
deriving DecidableEq, Repr

/-- `main(files)` from the source, with file contents supplied as the list
of lines `f.read().splitlines()` would produce. For each file in order:
uppercase every line, validate, and write `decode`'s bytes to stdout. The
result is the pair (bytes written to stdout, error that aborted the run if
any); an exception stops the loop, keeping the bytes already written. -/
def main : List (String × List (List Char)) → List Nat × Option RunError
  | [] => ([], none)
  | (filename, rawLines) :: rest =>
    let data := rawLines.map (List.map Char.toUpper)
    match validate filename data with
    | .error e => ([], some (.validation e))
    | .ok _ =>
      match decode data with
      | none => ([], some (.decodeFailure filename))
      | some bs =>
        let next := main rest
        (bs ++ next.1, next.2)

/-! ## Spec-side definitions

These follow the wording of the specification's decoder algorithm (§4.2),
to be compared with `decode` above. -/

/-- Spec §4.2 step 1: the "top" lines, indices 0, 2, 4, …, preserving
relative order. -/
def specTopLines {α : Type} : List α → List α
  | [] => []
  | [x] => [x]
  | x :: _ :: rest => x :: specTopLines rest

/-- Spec §4.2 step 1: the "bottom" lines, indices 1, 3, 5, …, preserving
relative order. -/
def specBotLines {α : Type} : List α → List α
  | [] => []
  | [_] => []
  | _ :: y :: rest => y :: specBotLines rest

/-- Spec §4.2 step 3: character-by-character interleaving — character 0 of
top, character 0 of bottom, character 1 of top, character 1 of bottom, … -/
def specInterleave {α : Type} : List α → List α → List α
  | [], _ => []
  | _ :: _, [] => []
  | x :: xs, y :: ys => x :: y :: specInterleave xs ys

/-- The sixteen hexadecimal digits in value order, for the spec-side
digit-value function. -/
def specHexDigits : List Char := "0123456789ABCDEF".toList

/-- Spec-side value of a hex digit: its position in `specHexDigits`. -/
def specHexDigitValue (c : Char) : Nat := specHexDigits.indexOf c

/-- Spec §4.2 step 4: decode a sequence of hex digits pairwise
(2 hex characters → 1 byte), most-significant nibble first, in order. -/
def specPairsToBytes : List Char → List Nat
  | [] => []
  | [_] => []
  | c1 :: c2 :: rest => (16 * specHexDigitValue c1 + specHexDigitValue c2) :: specPairsToBytes rest

/-- The full decoder algorithm as worded in spec §4.2: partition into top
and bottom lines, concatenate each partition, interleave character-wise,
and decode hex pairs. -/
def decodeSpec (data : List (List Char)) : List Nat :=
  specPairsToBytes (specInterleave (specTopLines data).flatten (specBotLines data).flatten)

/-- The validity requirements on a transcription, as the spec states them:
exactly 16 lines, every line exactly 64 characters, every character one of
the 16 uppercase hex digits. -/
def validTranscription (data : List (List Char)) : Prop :=
  data.length = 16 ∧ (∀ d ∈ data, d.length = 64) ∧ ∀ c ∈ data.flatten, c ∈ hexChars

instance (data : List (List Char)) : Decidable (validTranscription data) := by
  unfold validTranscription; infer_instance

/-! ## Concrete transcriptions used as witnesses -/

/-- A line of 64 `'0'` characters. -/
def zeroLine : List Char := List.replicate 64 '0'

/-- `"AB"` followed by 62 `'0'` characters. -/
def lineAB : List Char := 'A' :: 'B' :: List.replicate 62 '0'

/-- `"CD"` followed by 62 `'0'` characters. -/
def lineCD : List Char := 'C' :: 'D' :: List.replicate 62 '0'

/-- The spec §8 worked example: first line-pair `AB…`/`CD…`, fourteen
all-zero lines after. -/
def exTranscription : List (List Char) := lineAB :: lineCD :: List.replicate 14 zeroLine

/-- The 16×64 transcription whose first line-pair shows the 2×2 square with
`a b` on top of `c d`, all other characters `'0'`. -/
def squareTranscription (a b c d : Char) : List (List Char) :=
  (a :: b :: List.replicate 62 '0') :: (c :: d :: List.replicate 62 '0') ::
    List.replicate 14 zeroLine

/-- A 64-character line starting with `'G'`, an invalid character. -/
def lineG : List Char := 'G' :: List.replicate 63 '0'

/-- A malformed transcription: only 15 lines, and it also contains the
invalid character `'G'`. -/
def badTranscription : List (List Char) := lineG :: List.replicate 14 zeroLine

/-! ## The inverse transform (encoder), used to exhibit round-trip inputs -/

/-- Hex digit character for a nibble value. -/
def hexDigitChar (n : Nat) : Char := specHexDigits.getD n '0'

/-- High-nibble character of a byte. -/
def hiDigit (b : Nat) : Char := hexDigitChar (b / 16)

/-- Low-nibble character of a byte. -/
def loDigit (b : Nat) : Char := hexDigitChar (b % 16)

/-- Encode bytes into `k` line-pairs: each group of 64 bytes becomes a top
line of high nibbles over a bottom line of low nibbles. -/
def encodeBytes : Nat → List Nat → List (List Char)
  | 0, _ => []
  | k + 1, bs =>
    ((bs.take 64).map hiDigit) :: ((bs.take 64).map loDigit) :: encodeBytes k (bs.drop 64)

/-- The inverse of `decode` on 512-byte sequences: the 16-line × 64-character
top/bottom interleaved hex layout. -/
def encodeTranscription (bs : List Nat) : List (List Char) := encodeBytes 8 bs

/-! ## Helper lemmas -/

/-- Induction principle consuming a list two elements at a time. -/
theorem twoStepInduction {α : Type} {P : List α → Prop} (h0 : P []) (h1 : ∀ a, P [a])
    (h2 : ∀ a b l, P l → P (a :: b :: l)) : ∀ l, P l
  | [] => h0
  | [a] => h1 a
  | a :: b :: l => h2 a b l (twoStepInduction h0 h1 h2 l)

theorem specTopLines_eq_evens {α : Type} : ∀ l : List α, specTopLines l = evens l :=
  twoStepInduction rfl (fun _ => rfl) (fun a b l ih => by simp [specTopLines, evens, ih])

theorem specBotLines_eq_odds {α : Type} : ∀ l : List α, specBotLines l = odds l :=
  twoStepInduction rfl (fun _ => rfl) (fun a b l ih => by simp [specBotLines, odds, ih])

/-- `''.join(chain.from_iterable(zip(l, m)))` is exactly the spec's
character-by-character interleaving. -/
theorem zip_flatMap_eq_specInterleave {α : Type} :
    ∀ l m : List α, ((l.zip m).flatMap fun p => [p.1, p.2]) = specInterleave l m
  | [], m => by cases m <;> simp [specInterleave]
  | a :: l, [] => by simp [specInterleave]
  | a :: l, b :: m => by
    simp only [List.zip_cons_cons, List.flatMap_cons, specInterleave, List.cons_append,
      List.nil_append]
    rw [zip_flatMap_eq_specInterleave l m]

theorem hexVal_of_mem : ∀ c ∈ hexChars, hexVal c = some (specHexDigitValue c) := by decide

theorem specHexDigitValue_lt : ∀ c ∈ hexChars, specHexDigitValue c < 16 := by decide

theorem hexVal_hexDigitChar : ∀ n : Nat, n < 16 → hexVal (hexDigitChar n) = some n := by decide

theorem hexDigitChar_mem : ∀ n : Nat, n < 16 → hexDigitChar n ∈ hexChars := by decide

/-- On hex-digit input of even length, `bytes.fromhex` succeeds and returns
the pairwise decoding. -/
theorem bytesFromHex_eq_spec :
    ∀ l : List Char, (∀ c ∈ l, c ∈ hexChars) → l.length % 2 = 0 →
      bytesFromHex l = some (specPairsToBytes l) := by
  refine twoStepInduction ?_ ?_ ?_
  · intro _ _; rfl
  · intro a _ hlen
    simp [List.length_singleton] at hlen
  · intro a b l ih hmem hlen
    have ha := hexVal_of_mem a (hmem a (by simp))
    have hb := hexVal_of_mem b (hmem b (by simp))
    have hlen' : l.length % 2 = 0 := by
      simp only [List.length_cons] at hlen
      omega
    have ihl := ih (fun c hc => hmem c (by simp [hc])) hlen'
    simp [bytesFromHex, specPairsToBytes, ha, hb, ihl]

theorem specPairsToBytes_length : ∀ l : List Char, (specPairsToBytes l).length = l.length / 2 := by
  refine twoStepInduction (by simp [specPairsToBytes]) (fun a => by simp [specPairsToBytes]) ?_
  intro a b l ih
  simp only [specPairsToBytes, List.length_cons, ih]
  omega

theorem evens_length {α : Type} : ∀ l : List α, (evens l).length = (l.length + 1) / 2 := by
  refine twoStepInduction (by simp [evens]) (fun a => by simp [evens]) ?_
  intro a b l ih
  simp only [evens, List.length_cons, ih]
  omega

theorem odds_length {α : Type} : ∀ l : List α, (odds l).length = l.length / 2 := by
  refine twoStepInduction (by simp [odds]) (fun a => by simp [odds]) ?_
  intro a b l ih
  simp only [odds, List.length_cons, ih]
  omega

theorem specInterleave_length {α : Type} :
    ∀ l m : List α, (specInterleave l m).length = 2 * min l.length m.length
  | [], m => by simp [specInterleave]
  | a :: l, [] => by simp [specInterleave]
  | a :: l, b :: m => by
    simp only [specInterleave, List.length_cons, specInterleave_length l m]
    omega

theorem flatten_length_of_forall {α : Type} (n : Nat) :
    ∀ L : List (List α), (∀ x ∈ L, x.length = n) → L.flatten.length = n * L.length
  | [], _ => by simp
  | x :: L, h => by
    simp only [List.flatten_cons, List.length_append, List.length_cons,
      flatten_length_of_forall n L (fun y hy => h y (List.mem_cons_of_mem x hy)),
      h x (List.mem_cons_self x L)]
    ring

theorem mem_evens {α : Type} {x : α} : ∀ {l : List α}, x ∈ evens l → x ∈ l := by
  intro l
  induction l using twoStepInduction with
  | h0 => exact fun h => h
  | h1 a => exact fun h => h
  | h2 a b l ih =>
    intro h
    rcases List.mem_cons.mp h with h' | h'
    · simp [h']
    · simp [List.mem_cons, ih h']

theorem mem_odds {α : Type} {x : α} : ∀ {l : List α}, x ∈ odds l → x ∈ l := by
  intro l
  induction l using twoStepInduction with
  | h0 => exact fun h => h
  | h1 a => exact fun h => by simp [odds] at h
  | h2 a b l ih =>
    intro h
    rcases List.mem_cons.mp h with h' | h'
    · simp [h']
    · simp [List.mem_cons, ih h']

theorem mem_specInterleave {α : Type} (x : α) :
    ∀ l m : List α, x ∈ specInterleave l m → x ∈ l ∨ x ∈ m
  | [], m => by simp [specInterleave]
  | a :: l, [] => by simp [specInterleave]
  | a :: l, b :: m => by
    intro h
    rcases List.mem_cons.mp h with h' | h'
    · exact Or.inl (by simp [h'])
    · rcases List.mem_cons.mp h' with h'' | h''
      · exact Or.inr (by simp [h''])
      · rcases mem_specInterleave x l m h'' with h3 | h3
        · exact Or.inl (List.mem_cons_of_mem a h3)
        · exact Or.inr (List.mem_cons_of_mem b h3)

/-- Every character of the interleaved sequence built inside `decode` comes
from the transcription, hence is a hex digit whenever all transcription
characters are. -/
theorem allHex_mem_hexChars {data : List (List Char)}
    (h : ∀ c ∈ data.flatten, c ∈ hexChars) :
    ∀ c ∈ ((evens data).flatten.zip (odds data).flatten).flatMap fun p => [p.1, p.2],
      c ∈ hexChars := by
  intro c hc
  rw [zip_flatMap_eq_specInterleave] at hc
  rcases mem_specInterleave c _ _ hc with h' | h'
  · rcases List.mem_flatten.mp h' with ⟨l, hl, hcl⟩
    exact h c (List.mem_flatten.mpr ⟨l, mem_evens hl, hcl⟩)
  · rcases List.mem_flatten.mp h' with ⟨l, hl, hcl⟩
    exact h c (List.mem_flatten.mpr ⟨l, mem_odds hl, hcl⟩)

/-- Core refinement: on any transcription whose characters are all valid hex
digits, `decode` succeeds and agrees with the spec's algorithm. -/
theorem decode_eq_of_hexChars {data : List (List Char)}
    (h : ∀ c ∈ data.flatten, c ∈ hexChars) : decode data = some (decodeSpec data) := by
  show bytesFromHex (((evens data).flatten.zip (odds data).flatten).flatMap fun p => [p.1, p.2]) =
    some (decodeSpec data)
  have hmem := allHex_mem_hexChars h
  rw [zip_flatMap_eq_specInterleave] at hmem ⊢
  unfold decodeSpec
  rw [specTopLines_eq_evens, specBotLines_eq_odds]
  apply bytesFromHex_eq_spec _ hmem
  rw [specInterleave_length]
  omega

/-- On a well-shaped transcription the spec algorithm yields 512 bytes. -/
theorem decodeSpec_length {data : List (List Char)} (h16 : data.length = 16)
    (h64 : ∀ d ∈ data, d.length = 64) : (decodeSpec data).length = 512 := by
  unfold decodeSpec
  rw [specPairsToBytes_length, specInterleave_length, specTopLines_eq_evens,
    specBotLines_eq_odds,
    flatten_length_of_forall 64 _ (fun x hx => h64 x (mem_evens hx)),
    flatten_length_of_forall 64 _ (fun x hx => h64 x (mem_odds hx)),
    evens_length, odds_length, h16]
  norm_num

/-- The flat character condition restated line by line. -/
theorem validTranscription_iff (data : List (List Char)) :
    validTranscription data ↔
      data.length = 16 ∧ (∀ d ∈ data, d.length = 64) ∧ ∀ l ∈ data, ∀ c ∈ l, c ∈ hexChars := by
  unfold validTranscription
  rw [List.forall_mem_flatten]

/-- `validate` succeeds exactly on valid transcriptions. -/
theorem validate_ok_iff (f : String) (data : List (List Char)) :
    validate f data = .ok () ↔ validTranscription data := by
  unfold validate validTranscription
  split_ifs with h1 h2 h3 <;> simp_all
  exact h3

/-- `validate` reports the first violated requirement, in source order:
line count, then line length, then character set. -/
theorem validate_error_eq (f : String) (data : List (List Char)) :
    (data.length ≠ 16 → validate f data = .error (.wrongLineCount f data.length)) ∧
    (data.length = 16 → ¬ (∀ d ∈ data, d.length = 64) →
      validate f data = .error (.wrongLineLength f)) ∧
    (data.length = 16 → (∀ d ∈ data, d.length = 64) → ¬ (∀ c ∈ data.flatten, c ∈ hexChars) →
      validate f data = .error (.badCharacters f)) := by
  unfold validate
  split_ifs with h1 h2 h3 <;> simp_all
  exact h3

/-- An all-zeros transcription: 16 lines of 64 `'0'` characters. -/
def zeroTranscription : List (List Char) := List.replicate 16 zeroLine

/-! ## Claim theorems -/

/-- C1: for every validated transcription, `decode` returns exactly the
bytes produced by the spec's algorithm — concatenate the even-indexed
lines, concatenate the odd-indexed lines, interleave them character by
character starting with the even-indexed string, and decode the resulting
sequence as hex-digit pairs, most-significant nibble first. -/
theorem decode_follows_spec_algorithm (data : List (List Char))
    (h : validTranscription data) : decode data = some (decodeSpec data) :=
  decode_eq_of_hexChars h.2.2

theorem decode_follows_spec_algorithm_witness :
    decode exTranscription = some (decodeSpec exTranscription) :=
  decode_follows_spec_algorithm exTranscription
    ((validTranscription_iff exTranscription).mpr (by decide))

/-- C2: for every validated transcription, `decode` succeeds with exactly
512 bytes, which is the transcription's total character count (1024)
divided by 2. -/
theorem decode_produces_512_bytes (data : List (List Char))
    (h : validTranscription data) :
    ∃ bs, decode data = some bs ∧ bs.length = 512 ∧ data.flatten.length = 2 * bs.length := by
  refine ⟨decodeSpec data, decode_eq_of_hexChars h.2.2, decodeSpec_length h.1 h.2.1, ?_⟩
  rw [decodeSpec_length h.1 h.2.1, flatten_length_of_forall 64 data h.2.1, h.1]

theorem decode_produces_512_bytes_witness :
    ∃ bs, decode zeroTranscription = some bs ∧ bs.length = 512 ∧
      zeroTranscription.flatten.length = 2 * bs.length :=
  decode_produces_512_bytes zeroTranscription
    ((validTranscription_iff zeroTranscription).mpr (by decide))

/-- C3: the transcription whose first line-pair is `AB…0` over `CD…0`
decodes with first two bytes `0xAC` and `0xBD`, coming from the interleaved
sequence `A`,`C`,`B`,`D`, i.e. the hex string `ACBD`. -/
theorem decode_worked_example :
    (decode exTranscription).map (fun bs => bs.take 2) = some [0xAC, 0xBD] := by decide

/-- C6: for a validated transcription, the hex-decoding step inside
`decode` cannot fail — the interleaved sequence has even length and only
hex-digit characters, so `bytes.fromhex` never hits its error branch. -/
theorem decode_fromhex_unreachable (data : List (List Char))
    (h : validTranscription data) :
    (((evens data).flatten.zip (odds data).flatten).flatMap fun p => [p.1, p.2]).length % 2 = 0 ∧
    (∀ c ∈ ((evens data).flatten.zip (odds data).flatten).flatMap fun p => [p.1, p.2],
      c ∈ hexChars) ∧
    decode data ≠ none := by
  refine ⟨?_, allHex_mem_hexChars h.2.2, ?_⟩
  · rw [zip_flatMap_eq_specInterleave, specInterleave_length]
    omega
  · rw [decode_eq_of_hexChars h.2.2]
    simp

theorem decode_fromhex_unreachable_witness :
    (((evens zeroTranscription).flatten.zip (odds zeroTranscription).flatten).flatMap
      fun p => [p.1, p.2]).length % 2 = 0 ∧
    (∀ c ∈ ((evens zeroTranscription).flatten.zip (odds zeroTranscription).flatten).flatMap
      fun p => [p.1, p.2], c ∈ hexChars) ∧
    decode zeroTranscription ≠ none :=
  decode_fromhex_unreachable zeroTranscription
    ((validTranscription_iff zeroTranscription).mpr (by decide))

/-- C5: `validate` succeeds if and only if the data has exactly 16 lines,
each of exactly 64 characters, all drawn from `0123456789ABCDEF`; any
failure is an error naming the offending file and the first violated
requirement (and, for the line count, the observed number of lines). -/
theorem validate_contract (f : String) (data : List (List Char)) :
    (validate f data = .ok () ↔
      data.length = 16 ∧ (∀ d ∈ data, d.length = 64) ∧ ∀ c ∈ data.flatten, c ∈ hexChars) ∧
    ∀ e, validate f data = .error e → e.filename = f ∧
      ((∃ n, e = .wrongLineCount f n ∧ n = data.length ∧ n ≠ 16) ∨
       (e = .wrongLineLength f ∧ ¬ ∀ d ∈ data, d.length = 64) ∨
       (e = .badCharacters f ∧ ¬ ∀ c ∈ data.flatten, c ∈ hexChars)) := by
  constructor
  · exact validate_ok_iff f data
  · intro e he
    unfold validate at he
    split_ifs at he with h1 h2 h3
    · injection he with he'
      subst he'
      exact ⟨rfl, Or.inr (Or.inr ⟨rfl, h3⟩)⟩
    · injection he with he'
      subst he'
      exact ⟨rfl, Or.inr (Or.inl ⟨rfl, h2⟩)⟩
    · injection he with he'
      subst he'
      exact ⟨rfl, Or.inl ⟨data.length, rfl, rfl, h1⟩⟩

theorem validate_contract_witness : validate "screen.txt" exTranscription = .ok () :=
  (validate_contract "screen.txt" exTranscription).1.mpr
    ⟨by decide, by decide, by rw [List.forall_mem_flatten]; decide⟩

/-- C10: `validate` reports exactly the first violated requirement in the
fixed source order — line count, then line length, then character set. -/
theorem validate_checks_in_order (f : String) (data : List (List Char)) :
    (data.length ≠ 16 → validate f data = .error (.wrongLineCount f data.length)) ∧
    (data.length = 16 → ¬ (∀ d ∈ data, d.length = 64) →
      validate f data = .error (.wrongLineLength f)) ∧
    (data.length = 16 → (∀ d ∈ data, d.length = 64) → ¬ (∀ c ∈ data.flatten, c ∈ hexChars) →
      validate f data = .error (.badCharacters f)) :=
  validate_error_eq f data

theorem validate_checks_in_order_witness :
    validate "bad.txt" badTranscription = .error (.wrongLineCount "bad.txt" 15) :=
  (validate_checks_in_order "bad.txt" badTranscription).1 (by decide)

/-- C4 counterexample: the transcription with first line-pair `AB…0` over
`CD…0` does NOT decode to first bytes `0xAB, 0xCD`; the decoder interleaves
nibbles, so the square `AB`/`CD` yields `0xAC, 0xBD` instead. -/
theorem decode_not_halfword_bigendian :
    (decode exTranscription).map (fun bs => bs.take 2) ≠ some [0xAB, 0xCD] := by decide

/-- C4 (amended): a halfword shown as top digits `a b` over bottom digits
`c d` contributes the nibble-interleaved bytes `0x(a c)` then `0x(b d)` —
for the first square, bytes `16·a+c` and `16·b+d`, not the big-endian pair
`0x(a b), 0x(c d)`. -/
theorem decode_square_interleaves_nibbles (a b c d : Char)
    (ha : a ∈ hexChars) (hb : b ∈ hexChars) (hc : c ∈ hexChars) (hd : d ∈ hexChars) :
    ∃ rest, decode (squareTranscription a b c d) =
      some ((16 * specHexDigitValue a + specHexDigitValue c) ::
            (16 * specHexDigitValue b + specHexDigitValue d) :: rest) := by
  have hvalid : validTranscription (squareTranscription a b c d) := by
    rw [validTranscription_iff]
    refine ⟨by simp [squareTranscription], ?_, ?_⟩
    · intro l hl
      rcases List.mem_cons.mp hl with rfl | hl'
      · simp
      · rcases List.mem_cons.mp hl' with rfl | hl''
        · simp
        · rw [List.eq_of_mem_replicate hl'']
          decide
    · intro l hl c' hc'
      rcases List.mem_cons.mp hl with rfl | hl'
      · rcases List.mem_cons.mp hc' with rfl | hc2
        · exact ha
        · rcases List.mem_cons.mp hc2 with rfl | hc3
          · exact hb
          · rw [List.eq_of_mem_replicate hc3]
            decide
      · rcases List.mem_cons.mp hl' with rfl | hl''
        · rcases List.mem_cons.mp hc' with rfl | hc2
          · exact hc
          · rcases List.mem_cons.mp hc2 with rfl | hc3
            · exact hd
            · rw [List.eq_of_mem_replicate hc3]
              decide
        · rw [List.eq_of_mem_replicate hl''] at hc'
          unfold zeroLine at hc'
          rw [List.eq_of_mem_replicate hc']
          decide
  refine ⟨specPairsToBytes (specInterleave
      (List.replicate 62 '0' ++ (specTopLines (List.replicate 14 zeroLine)).flatten)
      (List.replicate 62 '0' ++ (specBotLines (List.replicate 14 zeroLine)).flatten)), ?_⟩
  rw [decode_eq_of_hexChars hvalid.2.2]
  unfold decodeSpec squareTranscription
  simp only [specTopLines, specBotLines, List.flatten_cons, List.cons_append, specInterleave,
    specPairsToBytes]

theorem decode_square_interleaves_nibbles_witness :
    ∃ rest, decode (squareTranscription 'A' 'B' 'C' 'D') =
      some ((16 * specHexDigitValue 'A' + specHexDigitValue 'C') ::
            (16 * specHexDigitValue 'B' + specHexDigitValue 'D') :: rest) :=
  decode_square_interleaves_nibbles 'A' 'B' 'C' 'D' (by decide) (by decide) (by decide)
    (by decide)

/-! ## Round-trip: every 512-byte sequence arises from some valid transcription -/

theorem encodeBytes_length : ∀ (k : Nat) (bs : List Nat), (encodeBytes k bs).length = 2 * k
  | 0, _ => rfl
  | k + 1, bs => by
    simp only [encodeBytes, List.length_cons, encodeBytes_length k (bs.drop 64)]
    omega

theorem encodeBytes_line_length : ∀ (k : Nat) (bs : List Nat), bs.length = 64 * k →
    ∀ l ∈ encodeBytes k bs, l.length = 64
  | 0, bs, _ => by simp [encodeBytes]
  | k + 1, bs, h => by
    intro l hl
    have htake : (bs.take 64).length = 64 := by
      rw [List.length_take]
      omega
    simp only [encodeBytes] at hl
    rcases List.mem_cons.mp hl with rfl | hl'
    · rw [List.length_map]
      exact htake
    · rcases List.mem_cons.mp hl' with rfl | hl''
      · rw [List.length_map]
        exact htake
      · exact encodeBytes_line_length k (bs.drop 64) (by rw [List.length_drop]; omega) l hl''

theorem encodeBytes_chars : ∀ (k : Nat) (bs : List Nat), (∀ b ∈ bs, b < 256) →
    ∀ l ∈ encodeBytes k bs, ∀ c ∈ l, c ∈ hexChars
  | 0, bs, _ => by simp [encodeBytes]
  | k + 1, bs, h => by
    intro l hl c hc
    simp only [encodeBytes] at hl
    rcases List.mem_cons.mp hl with rfl | hl'
    · rcases List.mem_map.mp hc with ⟨b, hb, rfl⟩
      have hb' : b < 256 := h b (List.take_subset 64 bs hb)
      exact hexDigitChar_mem (b / 16) (by omega)
    · rcases List.mem_cons.mp hl' with rfl | hl''
      · rcases List.mem_map.mp hc with ⟨b, hb, rfl⟩
        exact hexDigitChar_mem (b % 16) (Nat.mod_lt b (by norm_num))
      · exact encodeBytes_chars k (bs.drop 64) (fun b hb => h b (List.drop_subset 64 bs hb))
          l hl'' c hc

theorem flatten_evens_encodeBytes : ∀ (k : Nat) (bs : List Nat), bs.length = 64 * k →
    (evens (encodeBytes k bs)).flatten = bs.map hiDigit
  | 0, bs, h => by
    have hnil : bs = [] := List.eq_nil_of_length_eq_zero (by omega)
    simp [encodeBytes, evens, hnil]
  | k + 1, bs, h => by
    simp only [encodeBytes, evens, List.flatten_cons]
    rw [flatten_evens_encodeBytes k (bs.drop 64) (by rw [List.length_drop]; omega),
      ← List.map_append, List.take_append_drop]

theorem flatten_odds_encodeBytes : ∀ (k : Nat) (bs : List Nat), bs.length = 64 * k →
    (odds (encodeBytes k bs)).flatten = bs.map loDigit
  | 0, bs, h => by
    have hnil : bs = [] := List.eq_nil_of_length_eq_zero (by omega)
    simp [encodeBytes, odds, hnil]
  | k + 1, bs, h => by
    simp only [encodeBytes, odds, List.flatten_cons]
    rw [flatten_odds_encodeBytes k (bs.drop 64) (by rw [List.length_drop]; omega),
      ← List.map_append, List.take_append_drop]

theorem bytesFromHex_interleave_digits : ∀ bs : List Nat, (∀ b ∈ bs, b < 256) →
    bytesFromHex (specInterleave (bs.map hiDigit) (bs.map loDigit)) = some bs
  | [], _ => rfl
  | b :: bs, h => by
    have hb : b < 256 := h b (List.mem_cons_self b bs)
    have h1 : hexVal (hiDigit b) = some (b / 16) := by
      unfold hiDigit
      exact hexVal_hexDigitChar (b / 16) (by omega)
    have h2 : hexVal (loDigit b) = some (b % 16) := by
      unfold loDigit
      exact hexVal_hexDigitChar (b % 16) (Nat.mod_lt b (by norm_num))
    have ih := bytesFromHex_interleave_digits bs (fun x hx => h x (List.mem_cons_of_mem b hx))
    simp only [List.map_cons, specInterleave, bytesFromHex, h1, h2, ih, Option.bind_eq_bind,
      Option.some_bind, Option.pure_def, Nat.div_add_mod]

theorem encodeTranscription_valid (bs : List Nat) (hlen : bs.length = 512)
    (hb : ∀ b ∈ bs, b < 256) : validTranscription (encodeTranscription bs) := by
  rw [validTranscription_iff]
  refine ⟨?_, encodeBytes_line_length 8 bs (by omega), encodeBytes_chars 8 bs hb⟩
  unfold encodeTranscription
  rw [encodeBytes_length]

theorem decode_encodeTranscription (bs : List Nat) (hlen : bs.length = 512)
    (hb : ∀ b ∈ bs, b < 256) : decode (encodeTranscription bs) = some bs := by
  show bytesFromHex (((evens (encodeTranscription bs)).flatten.zip
    (odds (encodeTranscription bs)).flatten).flatMap fun p => [p.1, p.2]) = some bs
  rw [zip_flatMap_eq_specInterleave]
  unfold encodeTranscription
  rw [flatten_evens_encodeBytes 8 bs (by omega), flatten_odds_encodeBytes 8 bs (by omega)]
  exact bytesFromHex_interleave_digits bs hb

/-- C7: `decode` is surjective onto 512-byte sequences — for every list of
512 byte values there is a transcription in the 16×64 top/bottom
interleaved hex layout that `validate` accepts and that `decode` maps back
to exactly those bytes. -/
theorem decode_roundtrip (bs : List Nat) (hlen : bs.length = 512)
    (hb : ∀ b ∈ bs, b < 256) :
    ∃ data, (∀ f, validate f data = .ok ()) ∧ decode data = some bs :=
  ⟨encodeTranscription bs,
    fun f => (validate_ok_iff f _).mpr (encodeTranscription_valid bs hlen hb),
    decode_encodeTranscription bs hlen hb⟩

theorem decode_roundtrip_witness :
    ∃ data, (∀ f, validate f data = .ok ()) ∧ decode data = some (List.replicate 512 0) :=
  decode_roundtrip (List.replicate 512 0) (by simp)
    (fun b hb => by rw [List.eq_of_mem_replicate hb]; norm_num)

/-! ## The driver loop -/

theorem main_cons_ok {f : String} {lines : List (List Char)}
    {rest : List (String × List (List Char))} {bs : List Nat}
    (hv : validate f (lines.map (List.map Char.toUpper)) = .ok ())
    (hd : decode (lines.map (List.map Char.toUpper)) = some bs) :
    main ((f, lines) :: rest) = (bs ++ (main rest).1, (main rest).2) := by
  simp only [main, hv, hd]

theorem main_cons_error {f : String} {lines : List (List Char)}
    {rest : List (String × List (List Char))} {e : ValidationError}
    (hv : validate f (lines.map (List.map Char.toUpper)) = .error e) :
    main ((f, lines) :: rest) = ([], some (.validation e)) := by
  simp only [main, hv]

theorem exTranscription_upper :
    exTranscription.map (List.map Char.toUpper) = exTranscription := by decide

theorem zeroTranscription_upper :
    zeroTranscription.map (List.map Char.toUpper) = zeroTranscription := by decide

theorem badTranscription_upper :
    badTranscription.map (List.map Char.toUpper) = badTranscription := by decide

theorem validate_exTranscription_ok (f : String) : validate f exTranscription = .ok () :=
  (validate_ok_iff f _).mpr ((validTranscription_iff _).mpr (by decide))

theorem validate_zeroTranscription_ok (f : String) : validate f zeroTranscription = .ok () :=
  (validate_ok_iff f _).mpr ((validTranscription_iff _).mpr (by decide))

/-- C9: when every listed file validates, `main` writes exactly the
concatenation, in argument order, of each file's decoded bytes — no
separators, headers, or metadata — and reports no error. -/
theorem main_concatenates (files : List (String × List (List Char)))
    (h : ∀ p ∈ files, validate p.1 (p.2.map (List.map Char.toUpper)) = .ok ()) :
    main files =
      (files.flatMap fun p => (decode (p.2.map (List.map Char.toUpper))).getD [], none) := by
  induction files with
  | nil => rfl
  | cons p rest ih =>
    obtain ⟨f, lines⟩ := p
    have hv := h (f, lines) (List.mem_cons_self _ _)
    have hvalid := (validate_ok_iff _ _).mp hv
    have hd := decode_eq_of_hexChars hvalid.2.2
    rw [main_cons_ok hv hd, ih (fun q hq => h q (List.mem_cons_of_mem _ hq))]
    simp [hd]

theorem main_concatenates_witness :
    main [("a.txt", exTranscription), ("b.txt", zeroTranscription)] =
      ([("a.txt", exTranscription), ("b.txt", zeroTranscription)].flatMap
        fun p => (decode (p.2.map (List.map Char.toUpper))).getD [], none) :=
  main_concatenates _ (fun p hp => by
    rcases List.mem_cons.mp hp with rfl | hp'
    · show validate "a.txt" (exTranscription.map (List.map Char.toUpper)) = .ok ()
      rw [exTranscription_upper]
      exact validate_exTranscription_ok "a.txt"
    · rcases List.mem_cons.mp hp' with rfl | hp''
      · show validate "b.txt" (zeroTranscription.map (List.map Char.toUpper)) = .ok ()
        rw [zeroTranscription_upper]
        exact validate_zeroTranscription_ok "b.txt"
      · cases hp'')

/-- C8: if the N-th file fails validation, the run stops there — the output
holds exactly the concatenated decodes of the earlier valid files, and
nothing for the failing file or any later one. -/
theorem main_stops_at_first_invalid (pre : List (String × List (List Char)))
    (f : String) (lines : List (List Char)) (post : List (String × List (List Char)))
    (e : ValidationError)
    (hpre : ∀ p ∈ pre, validate p.1 (p.2.map (List.map Char.toUpper)) = .ok ())
    (hbad : validate f (lines.map (List.map Char.toUpper)) = .error e) :
    main (pre ++ (f, lines) :: post) =
      (pre.flatMap fun p => (decode (p.2.map (List.map Char.toUpper))).getD [],
        some (.validation e)) := by
  revert hpre
  induction pre with
  | nil =>
    intro _
    simpa using main_cons_error hbad
  | cons p rest ih =>
    intro hpre
    obtain ⟨g, glines⟩ := p
    have hv := hpre (g, glines) (List.mem_cons_self _ _)
    have hvalid := (validate_ok_iff _ _).mp hv
    have hd := decode_eq_of_hexChars hvalid.2.2
    rw [List.cons_append, main_cons_ok hv hd, ih (fun q hq => hpre q (List.mem_cons_of_mem _ hq))]
    simp [hd]

theorem main_stops_at_first_invalid_witness :
    main ([("a.txt", exTranscription)] ++ ("bad.txt", badTranscription) :: []) =
      ([("a.txt", exTranscription)].flatMap
        fun p => (decode (p.2.map (List.map Char.toUpper))).getD [],
        some (.validation (.wrongLineCount "bad.txt" 15))) :=
  main_stops_at_first_invalid [("a.txt", exTranscription)] "bad.txt" badTranscription []
    (.wrongLineCount "bad.txt" 15)
    (fun p hp => by
      rcases List.mem_cons.mp hp with rfl | hp'
      · show validate "a.txt" (exTranscription.map (List.map Char.toUpper)) = .ok ()
        rw [exTranscription_upper]
        exact validate_exTranscription_ok "a.txt"
      · cases hp')
    (by
      show validate "bad.txt" (badTranscription.map (List.map Char.toUpper)) =
        .error (.wrongLineCount "bad.txt" 15)
      rw [badTranscription_upper]
      exact (validate_error_eq "bad.txt" badTranscription).1 (by decide))
